import Mathlib

/-!
Verification of the device-session / command-multiplexing core of
`src/services/controllerservice/ControllerService.ts`.

Strings are modelled as `List Char`; incoming byte chunks are modelled as
the text the source obtains via `data.toString()`.  Asynchronous calls
(serial reads, `setTimeout`) are modelled by explicit state passing: the
data a call would have produced is a parameter of the embedded function.
-/

/-- State of a pending command, mirroring `CommandState` in
`commands/Command.ts` (only the states the dispatcher inspects). -/
inductive CommandState
  | PENDING
  | DONE
deriving DecidableEq

/-- Modelled from the spec: the repository's `commands/Command.ts` is not in
the sources.  Per spec section 4.2 a command is a pure line-consuming state
machine: `appendLine(line)` mutates internal state and may flip the state to
COMPLETE/DONE.  We realise every variant by the lines it has received so far
plus a variant-specific completion function `spec` over those lines; `id`
stands for JavaScript object identity (`c !== command`). -/
structure Command where
  id : Nat
  command : List Char
  state : CommandState
  received : List (List Char)
  spec : List (List Char) → Bool

/-- Modelled from the spec: `appendLine` records the line and flips the
state to DONE exactly when the variant's response grammar is satisfied by
the lines received so far. -/
def Command.appendLine (c : Command) (line : List Char) : Command :=
  let r := c.received ++ [line]
  { c with received := r
           state := if c.spec r then CommandState.DONE else CommandState.PENDING }

/-- The `ControllerStatus` enum of `ControllerService.ts`. -/
inductive ControllerStatus
  | CONNECTION_LOST
  | DISCONNECTED
  | CONNECTING
  | CONNECTED
  | UNKNOWN_DEVICE
deriving DecidableEq

/-- Modelled from the spec: the parsed statistics record produced by
`GetStatsCommand` (its source is not in the repository snapshot); its shape
is opaque to the dispatcher, so we keep the raw lines. -/
structure Stats where
  raw : List (List Char)
deriving DecidableEq

/-- Mutable fields of `ControllerService` that the verified operations
touch (`serialPort` and `statusListeners` are external collaborators). -/
structure ControllerState where
  buffer : List Char
  commands : List Command
  xmodemMode : Bool
  status : ControllerStatus
  currentVersion : Option (List Char)
  stats : Option Stats

/-- The `ControllerService` constructor: empty buffer, empty queue,
`xmodemMode = false`, status `DISCONNECTED`, version and stats unset. -/
def initialState : ControllerState :=
  { buffer := []
    commands := []
    xmodemMode := false
    status := ControllerStatus.DISCONNECTED
    currentVersion := none
    stats := none }

/-- Strip every carriage return: `data.toString().replace(/\r/g, "")`. -/
def stripCR (s : List Char) : List Char :=
  s.filter (fun c => c != '\r')

/-- Body of the `if (this.commands.length)` block inside `onData`:
the line goes to `commands[0]`; if its state is then DONE it is popped
(`this.commands.slice(1)`).  An empty queue discards the line. -/
def routeLine (cmds : List Command) (line : List Char) : List Command :=
  match cmds with
  | [] => cmds
  | c :: rest =>
    let c2 := c.appendLine line
    if c2.state = CommandState.DONE then rest else c2 :: rest

/-- Helper for the loop measure: splitting at the first newline strictly
shrinks the buffer. -/
theorem newline_split (l : List Char) (h : '\n' ∈ l) :
    l.takeWhile (fun c => c != '\n') ++
      '\n' :: (l.dropWhile (fun c => c != '\n')).tail = l := by
  induction l with
  | nil => cases h
  | cons c t ih =>
    by_cases hc : c = '\n'
    · subst hc
      simp [List.takeWhile_cons, List.dropWhile_cons]
    · have hb : (c != '\n') = true := by simp [hc]
      have ht : '\n' ∈ t := by
        rcases List.mem_cons.mp h with h0 | h0
        · exact absurd h0.symm hc
        · exact h0
      simp only [List.takeWhile_cons, List.dropWhile_cons, hb, if_true, List.cons_append]
      rw [ih ht]

theorem newline_split_lt (l : List Char) (h : '\n' ∈ l) :
    ((l.dropWhile (fun c => c != '\n')).tail).length < l.length := by
  conv_rhs => rw [← newline_split l h]
  rw [List.length_append, List.length_cons]
  omega

/-- The `while (endLineIndex >= 0)` loop of `onData`: `endLineIndex >= 0`
is exactly the presence of a newline; `substring(0, endLineIndex)` is the
text before the first newline and `substring(endLineIndex + 1)` the text
after it.  Returns the emitted (console-logged, routed) lines, the final
buffer and the final queue. -/
def onDataLoop (cmds : List Command) (buffer : List Char) :
    List (List Char) × List Char × List Command :=
  if h : '\n' ∈ buffer then
    let line := buffer.takeWhile (fun c => c != '\n')
    let buffer2 := (buffer.dropWhile (fun c => c != '\n')).tail
    let cmds2 := routeLine cmds line
    let r := onDataLoop cmds2 buffer2
    (line :: r.1, r.2)
  else
    ([], buffer, cmds)
termination_by buffer.length
decreasing_by
  exact newline_split_lt buffer h

/-- Function `onData` of `ControllerService.ts`: a no-op in xmodem mode, otherwise
append the chunk (carriage returns stripped) to the buffer and run the
line-splitting/routing loop. -/
def onData (st : ControllerState) (data : List Char) :
    ControllerState × List (List Char) :=
  if st.xmodemMode then (st, [])
  else
    let r := onDataLoop st.commands (st.buffer ++ stripCR data)
    ({ st with buffer := r.2.1, commands := r.2.2 }, r.1)

/-- Feed a sequence of chunks through successive `onData` calls,
collecting every emitted line in order. -/
def feedAll (st : ControllerState) : List (List Char) → ControllerState × List (List Char)
  | [] => (st, [])
  | d :: ds =>
    let r1 := onData st d
    let r2 := feedAll r1.1 ds
    (r2.1, r1.2 ++ r2.2)

/-- Concatenation of a list of lists. -/
def concatAll {α : Type} (ls : List (List α)) : List α :=
  ls.foldr (fun a b => a ++ b) []

/-- Reinsert the newline the loop consumed after each emitted line. -/
def joinLines (ls : List (List Char)) : List Char :=
  ls.foldr (fun l acc => l ++ '\n' :: acc) []

theorem onDataLoop_pos (cmds : List Command) (buffer : List Char) (h : '\n' ∈ buffer) :
    onDataLoop cmds buffer =
      ((buffer.takeWhile (fun c => c != '\n')) ::
        (onDataLoop (routeLine cmds (buffer.takeWhile (fun c => c != '\n')))
          ((buffer.dropWhile (fun c => c != '\n')).tail)).1,
       (onDataLoop (routeLine cmds (buffer.takeWhile (fun c => c != '\n')))
          ((buffer.dropWhile (fun c => c != '\n')).tail)).2) := by
  rw [onDataLoop]
  simp [h]

theorem onDataLoop_neg (cmds : List Command) (buffer : List Char) (h : '\n' ∉ buffer) :
    onDataLoop cmds buffer = ([], buffer, cmds) := by
  rw [onDataLoop]
  simp [h]

theorem onDataLoop_spec : ∀ (n : Nat) (cmds : List Command) (buffer : List Char),
    buffer.length ≤ n →
    joinLines (onDataLoop cmds buffer).1 ++ (onDataLoop cmds buffer).2.1 = buffer
    ∧ '\n' ∉ (onDataLoop cmds buffer).2.1
    ∧ ∀ c ∈ (onDataLoop cmds buffer).2.1, c ∈ buffer := by
  intro n
  induction n with
  | zero =>
    intro cmds buffer hb
    have hbe : buffer = [] := List.eq_nil_of_length_eq_zero (Nat.le_zero.mp hb)
    subst hbe
    rw [onDataLoop_neg cmds [] (by simp)]
    simp [joinLines]
  | succ n ih =>
    intro cmds buffer hb
    by_cases h : '\n' ∈ buffer
    · rw [onDataLoop_pos cmds buffer h]
      have hlt : ((buffer.dropWhile (fun c => c != '\n')).tail).length < buffer.length :=
        newline_split_lt buffer h
      obtain ⟨h1, h2, h3⟩ := ih (routeLine cmds (buffer.takeWhile (fun c => c != '\n')))
        ((buffer.dropWhile (fun c => c != '\n')).tail) (by omega)
      refine ⟨?_, h2, ?_⟩
      · simp only [joinLines, List.foldr_cons] at h1 ⊢
        rw [List.append_assoc, List.cons_append, h1]
        exact newline_split buffer h
      · intro c hc
        have hcb := h3 c hc
        have := newline_split buffer h
        rw [← this]
        refine List.mem_append.mpr (Or.inr ?_)
        exact List.mem_cons.mpr (Or.inr hcb)
    · rw [onDataLoop_neg cmds buffer h]
      exact ⟨by simp [joinLines], h, fun c hc => hc⟩

theorem joinLines_append (a b : List (List Char)) :
    joinLines (a ++ b) = joinLines a ++ joinLines b := by
  induction a with
  | nil => simp [joinLines]
  | cons l t ih =>
    simp only [joinLines, List.foldr_cons, List.cons_append] at ih ⊢
    rw [ih]
    simp [List.append_assoc]

theorem stripCR_append (a b : List Char) :
    stripCR (a ++ b) = stripCR a ++ stripCR b := by
  simp [stripCR, List.filter_append]

theorem feedAll_spec (chunks : List (List Char)) :
    ∀ (st : ControllerState), st.xmodemMode = false →
    joinLines (feedAll st chunks).2 ++ (feedAll st chunks).1.buffer
      = st.buffer ++ stripCR (concatAll chunks)
    ∧ (feedAll st chunks).1.xmodemMode = false
    ∧ (∀ c ∈ (feedAll st chunks).1.buffer, c ∈ st.buffer ∨ c ∈ stripCR (concatAll chunks))
    ∧ ('\n' ∉ st.buffer → '\n' ∉ (feedAll st chunks).1.buffer) := by
  induction chunks with
  | nil =>
    intro st hx
    refine ⟨by simp [feedAll, joinLines, concatAll, stripCR], hx, ?_, fun h => h⟩
    intro c hc
    exact Or.inl hc
  | cons d ds ih =>
    intro st hx
    have hloop := onDataLoop_spec (st.buffer ++ stripCR d).length st.commands
      (st.buffer ++ stripCR d) (Nat.le_refl _)
    obtain ⟨l1, l2, l3⟩ := hloop
    have hstep : onData st d =
        ({ st with buffer := (onDataLoop st.commands (st.buffer ++ stripCR d)).2.1,
                   commands := (onDataLoop st.commands (st.buffer ++ stripCR d)).2.2 },
         (onDataLoop st.commands (st.buffer ++ stripCR d)).1) := by
      simp [onData, hx]
    obtain ⟨i1, i2, i3, i4⟩ := ih (onData st d).1 (by rw [hstep]; exact hx)
    have hfeed : feedAll st (d :: ds) =
        ((feedAll (onData st d).1 ds).1, (onData st d).2 ++ (feedAll (onData st d).1 ds).2) := by
      simp [feedAll]
    rw [hfeed]
    have hbuf1 : (onData st d).1.buffer = (onDataLoop st.commands (st.buffer ++ stripCR d)).2.1 := by
      rw [hstep]
    have hcat : concatAll (d :: ds) = d ++ concatAll ds := rfl
    refine ⟨?_, i2, ?_, ?_⟩
    · simp only [joinLines_append]
      rw [List.append_assoc, i1, hbuf1, ← List.append_assoc]
      have : (onData st d).2 = (onDataLoop st.commands (st.buffer ++ stripCR d)).1 := by
        rw [hstep]
      rw [this, l1, hcat, stripCR_append, List.append_assoc]
    · intro c hc
      rcases i3 c hc with hc1 | hc1
      · rw [hbuf1] at hc1
        have := l3 c hc1
        rcases List.mem_append.mp this with hc2 | hc2
        · exact Or.inl hc2
        · refine Or.inr ?_
          rw [hcat, stripCR_append]
          exact List.mem_append.mpr (Or.inl hc2)
      · refine Or.inr ?_
        rw [hcat, stripCR_append]
        exact List.mem_append.mpr (Or.inr hc1)
    · intro _
      refine i4 ?_
      rw [hbuf1]
      exact l2

/-- C1: feeding any sequence of chunks to `onData` (xmodem mode off), the
emitted lines with newlines reinserted followed by the retained buffer
reproduce the input with every carriage return removed, and the retained
buffer holds no newline (it is emitted only once a newline arrives). -/
theorem onData_line_reconstruction (chunks : List (List Char)) :
    joinLines (feedAll initialState chunks).2 ++ (feedAll initialState chunks).1.buffer
      = stripCR (concatAll chunks)
    ∧ '\n' ∉ (feedAll initialState chunks).1.buffer := by
  obtain ⟨h1, _, _, h4⟩ := feedAll_spec chunks initialState rfl
  refine ⟨?_, h4 (by simp [initialState])⟩
  rw [h1]
  simp [initialState]

/-- C10: after any sequence of `onData` calls starting from the freshly
constructed controller (xmodem mode off throughout), the retained line
buffer contains neither a newline nor a carriage return. -/
theorem onData_buffer_no_ctrl_chars (chunks : List (List Char)) :
    '\n' ∉ (feedAll initialState chunks).1.buffer
    ∧ '\r' ∉ (feedAll initialState chunks).1.buffer := by
  obtain ⟨_, _, h3, h4⟩ := feedAll_spec chunks initialState rfl
  refine ⟨h4 (by simp [initialState]), ?_⟩
  intro hr
  rcases h3 '\r' hr with hc | hc
  · simp [initialState] at hc
  · have := List.mem_filter.mp hc
    simp at this

/-- C6: while `xmodemMode` is set, `onData` is a no-op: the state (line
buffer and command queue included) is returned untouched and no line is
emitted. -/
theorem onData_xmodem_noop (st : ControllerState) (data : List Char)
    (hx : st.xmodemMode = true) :
    onData st data = (st, []) := by
  simp [onData, hx]

theorem onData_xmodem_noop_witness :
    onData { initialState with xmodemMode := true } ("G\ncode".toList)
      = ({ initialState with xmodemMode := true }, []) :=
  onData_xmodem_noop { initialState with xmodemMode := true } ("G\ncode".toList) rfl

theorem takeWhile_append_nl (l r : List Char) (h : '\n' ∉ l) :
    (l ++ r).takeWhile (fun c => c != '\n') = l ++ r.takeWhile (fun c => c != '\n') := by
  induction l with
  | nil => simp
  | cons c t ih =>
    have hc : c ≠ '\n' := fun he => h (he ▸ List.mem_cons_self c t)
    have hb : (c != '\n') = true := by simp [hc]
    have ht : '\n' ∉ t := fun he => h (List.mem_cons.mpr (Or.inr he))
    simp only [List.cons_append, List.takeWhile_cons, hb, if_true]
    rw [ih ht]

theorem dropWhile_append_nl (l r : List Char) (h : '\n' ∉ l) :
    (l ++ r).dropWhile (fun c => c != '\n') = r.dropWhile (fun c => c != '\n') := by
  induction l with
  | nil => simp
  | cons c t ih =>
    have hc : c ≠ '\n' := fun he => h (he ▸ List.mem_cons_self c t)
    have hb : (c != '\n') = true := by simp [hc]
    have ht : '\n' ∉ t := fun he => h (List.mem_cons.mpr (Or.inr he))
    simp only [List.cons_append, List.dropWhile_cons, hb, if_true]
    exact ih ht

theorem stripCR_no_newline (l : List Char) (h : '\n' ∉ l) : '\n' ∉ stripCR l := by
  intro hc
  exact h (List.mem_of_mem_filter hc)

/-- C8: a complete line arriving while the pending queue is empty (and no
partial line is buffered) leaves the session state exactly as it was: the
line is split off, logged and discarded because the queue is empty. -/
theorem onData_emptyQueue_noop (st : ControllerState) (line : List Char)
    (hx : st.xmodemMode = false) (hq : st.commands = []) (hb : st.buffer = [])
    (hl : '\n' ∉ line) :
    (onData st (line ++ ['\n'])).1 = st
    ∧ (onData st (line ++ ['\n'])).2 = [stripCR line] := by
  have hstrip : stripCR (line ++ ['\n']) = stripCR line ++ ['\n'] := by
    rw [stripCR_append]
    simp [stripCR]
  have hsl : '\n' ∉ stripCR line := stripCR_no_newline line hl
  have hmem : '\n' ∈ stripCR line ++ ['\n'] := List.mem_append.mpr (Or.inr (by simp))
  have htake : (stripCR line ++ ['\n']).takeWhile (fun c => c != '\n') = stripCR line := by
    rw [takeWhile_append_nl _ _ hsl]
    simp [List.takeWhile_cons]
  have hdrop : (stripCR line ++ ['\n']).dropWhile (fun c => c != '\n') = ['\n'] := by
    rw [dropWhile_append_nl _ _ hsl]
    simp [List.dropWhile_cons]
  have hloop : onDataLoop st.commands (st.buffer ++ stripCR (line ++ ['\n']))
      = ([stripCR line], [], []) := by
    rw [hb, hstrip, List.nil_append]
    rw [onDataLoop_pos _ _ hmem, htake, hdrop]
    simp only [List.tail_cons]
    rw [hq]
    have : routeLine [] (stripCR line) = [] := rfl
    rw [this, onDataLoop_neg [] [] (by simp)]
  have honce : onData st (line ++ ['\n'])
      = ({ st with buffer := [], commands := [] }, [stripCR line]) := by
    simp [onData, hx, hloop]
  rw [honce]
  refine ⟨?_, rfl⟩
  cases st with
  | mk b c x s v t => simp_all

theorem onData_emptyQueue_noop_witness :
    (onData initialState ("ok".toList ++ ['\n'])).1 = initialState
    ∧ (onData initialState ("ok".toList ++ ['\n'])).2 = [stripCR "ok".toList] :=
  onData_emptyQueue_noop initialState "ok".toList rfl rfl rfl (by decide)

/-- Version of `routeLine` instrumented with a completion log: the second component
accumulates, in pop order, every command whose state reached DONE (the
moment the source pops it from the queue and its pending result resolves). -/
def routeLineLog (acc : List Command × List Command) (line : List Char) :
    List Command × List Command :=
  match acc.1 with
  | [] => acc
  | c :: rest =>
    let c2 := c.appendLine line
    if c2.state = CommandState.DONE then (rest, acc.2 ++ [c2]) else (c2 :: rest, acc.2)

/-- Feed a sequence of lines through the dispatcher, starting from queue
`cmds` with an empty completion log. -/
def feedLinesLog (cmds : List Command) (lines : List (List Char)) :
    List Command × List Command :=
  lines.foldl routeLineLog (cmds, [])

/-- Modelled from the spec: command `c` "expects exactly the lines `L`":
it is fresh (nothing received yet), and its response grammar is satisfied
by `L` and by no proper prefix of `L`, so it completes precisely on the
last line of `L`. -/
def Expects (c : Command) (L : List (List Char)) : Prop :=
  c.received = [] ∧ L ≠ [] ∧ c.spec L = true ∧
    ∀ n < L.length, c.spec (L.take n) = false

/-- The command as it stands when it resolves: all its expected lines
received, state DONE. -/
def completedCmd (c : Command) (L : List (List Char)) : Command :=
  { c with received := L, state := CommandState.DONE }

theorem routeLineLog_fst (q log : List Command) (line : List Char) :
    (routeLineLog (q, log) line).1 = routeLine q line := by
  cases q with
  | nil => rfl
  | cons c rest =>
    simp only [routeLineLog, routeLine]
    by_cases hd : (c.appendLine line).state = CommandState.DONE
    · simp [hd]
    · simp [hd]

theorem foldl_routeLineLog_fst (lines : List (List Char)) :
    ∀ (q log : List Command),
    (lines.foldl routeLineLog (q, log)).1 = lines.foldl routeLine q := by
  induction lines with
  | nil => intro q log; rfl
  | cons l ls ih =>
    intro q log
    rw [List.foldl_cons, List.foldl_cons]
    have h1 := routeLineLog_fst q log l
    cases hr2 : routeLineLog (q, log) l with
    | mk q1 log1 =>
      have hq1 : q1 = routeLine q l := by rw [← h1, hr2]
      rw [← hq1]
      exact ih q1 log1

theorem feed_one (L : List (List Char)) :
    ∀ (c : Command) (rest log : List Command) (pre : List (List Char)),
    c.received = pre → L ≠ [] →
    c.spec (pre ++ L) = true →
    (∀ n < L.length, c.spec (pre ++ L.take n) = false) →
    L.foldl routeLineLog (c :: rest, log)
      = (rest, log ++ [{ c with received := pre ++ L, state := CommandState.DONE }]) := by
  induction L with
  | nil => intro c rest log pre _ h2 _ _; exact absurd rfl h2
  | cons l ls ih =>
    intro c rest log pre h1 _ hdone hmin
    rw [List.foldl_cons]
    by_cases hnil : ls = []
    · subst hnil
      have hd : c.spec (pre ++ [l]) = true := hdone
      have hc2d : c.appendLine l
          = { c with received := pre ++ [l], state := CommandState.DONE } := by
        simp [Command.appendLine, h1, hd]
      have hroute : routeLineLog (c :: rest, log) l
          = (rest, log ++ [{ c with received := pre ++ [l], state := CommandState.DONE }]) := by
        simp [routeLineLog, hc2d]
      rw [hroute]
      rfl
    · have hlen : 1 < (l :: ls).length := by
        cases ls with
        | nil => exact absurd rfl hnil
        | cons a b => simp
      have hfalse : c.spec (pre ++ [l]) = false := by
        have h2 := hmin 1 hlen
        simpa using h2
      have hc2p : c.appendLine l
          = { c with received := pre ++ [l], state := CommandState.PENDING } := by
        simp [Command.appendLine, h1, hfalse]
      have hroute : routeLineLog (c :: rest, log) l
          = ({ c with received := pre ++ [l], state := CommandState.PENDING } :: rest, log) := by
        simp [routeLineLog, hc2p]
      rw [hroute]
      have hd2 : c.spec ((pre ++ [l]) ++ ls) = true := by
        rw [List.append_assoc]
        exact hdone
      have hm2 : ∀ n < ls.length, c.spec ((pre ++ [l]) ++ ls.take n) = false := by
        intro n hn
        have h2 := hmin (n + 1) (by simpa using Nat.succ_lt_succ hn)
        rw [List.append_assoc]
        exact h2
      rw [ih { c with received := pre ++ [l], state := CommandState.PENDING }
        rest log (pre ++ [l]) rfl hnil hd2 hm2]
      simp [List.append_assoc]

theorem feed_sequence (cs : List (Command × List (List Char))) :
    ∀ (log : List Command),
    (∀ p ∈ cs, Expects p.1 p.2) →
    (concatAll (cs.map Prod.snd)).foldl routeLineLog (cs.map Prod.fst, log)
      = ([], log ++ cs.map (fun p => completedCmd p.1 p.2)) := by
  induction cs with
  | nil => intro log _; simp [concatAll]
  | cons p cs2 ih =>
    intro log h
    obtain ⟨he1, he2, he3, he4⟩ := h p (List.mem_cons_self p cs2)
    have hcat : concatAll ((p :: cs2).map Prod.snd)
        = p.2 ++ concatAll (cs2.map Prod.snd) := rfl
    rw [hcat, List.foldl_append]
    have hone := feed_one p.2 p.1 (cs2.map Prod.fst) log [] he1 he2
      (by simpa using he3) (by simpa using he4)
    rw [List.map_cons, hone]
    have hrest := ih (log ++ [{ p.1 with received := [] ++ p.2, state := CommandState.DONE }])
      (fun q hq => h q (List.mem_cons.mpr (Or.inr hq)))
    rw [hrest]
    simp [completedCmd, List.append_assoc]

/-- C2: lines are routed only to the head of the pending queue, which is
popped exactly when its state turns DONE; consequently, queuing N fresh
commands and feeding exactly the lines each one expects completes them in
the order they were queued, emptying the queue. -/
theorem commandQueue_in_order (cs : List (Command × List (List Char)))
    (h : ∀ p ∈ cs, Expects p.1 p.2) :
    feedLinesLog (cs.map Prod.fst) (concatAll (cs.map Prod.snd))
      = ([], cs.map (fun p => completedCmd p.1 p.2))
    ∧ (concatAll (cs.map Prod.snd)).foldl routeLine (cs.map Prod.fst) = []
    ∧ ∀ (c : Command) (rest : List Command) (line : List Char),
        ((c.appendLine line).state = CommandState.DONE
            ∧ routeLine (c :: rest) line = rest)
        ∨ ((c.appendLine line).state ≠ CommandState.DONE
            ∧ routeLine (c :: rest) line = c.appendLine line :: rest) := by
  have h1 := feed_sequence cs [] h
  refine ⟨by simpa [feedLinesLog] using h1, ?_, ?_⟩
  · have h2 := foldl_routeLineLog_fst (concatAll (cs.map Prod.snd)) (cs.map Prod.fst) []
    rw [h1] at h2
    exact h2.symm
  · intro c rest line
    by_cases hd : (c.appendLine line).state = CommandState.DONE
    · exact Or.inl ⟨hd, by simp [routeLine, hd]⟩
    · exact Or.inr ⟨hd, by simp [routeLine, hd]⟩

instance (c : Command) (L : List (List Char)) : Decidable (Expects c L) := by
  unfold Expects
  infer_instance

/-- Concrete two-command queue, each command complete after one line. -/
def cmdW (n : Nat) : Command :=
  { id := n
    command := "$G".toList
    state := CommandState.PENDING
    received := []
    spec := fun ls => ls.length == 1 }

def csW : List (Command × List (List Char)) :=
  [(cmdW 1, ["ok".toList]), (cmdW 2, ["ok".toList])]

theorem commandQueue_in_order_witness :
    feedLinesLog (csW.map Prod.fst) (concatAll (csW.map Prod.snd))
      = ([], csW.map (fun p => completedCmd p.1 p.2))
    ∧ (concatAll (csW.map Prod.snd)).foldl routeLine (csW.map Prod.fst) = [] :=
  ⟨(commandQueue_in_order csW (by decide)).1,
   (commandQueue_in_order csW (by decide)).2.1⟩

/-- Function `_removeCommand` of `ControllerService.ts`:
`this.commands = this.commands.filter((c) => c !== command)`; JavaScript
reference identity is modelled by the command id. -/
def _removeCommand (st : ControllerState) (command : Command) : ControllerState :=
  { st with commands := st.commands.filter (fun c => c.id != command.id) }

/-- Dispatcher state together with the JavaScript timer queue: `now` is the
current clock, `timers` the active `setTimeout` registrations as pairs of
command id and fire deadline, and `rejected` the ids whose pending promise
was rejected with the timeout error, in rejection order. -/
structure TimedState where
  ctrl : ControllerState
  now : Nat
  timers : List (Nat × Nat)
  rejected : List Nat

/-- Function `send` of `ControllerService.ts` (synchronous part): push the command
onto the queue and, exactly when `timeoutMs > 0`, register a timer that
will fire `timeoutMs` after now (`setTimeout(..., timeoutMs)`).  With
`timeoutMs = 0` no timer is ever registered. -/
def sendT (ts : TimedState) (c : Command) (timeoutMs : Nat) : TimedState :=
  { ts with
    ctrl := { ts.ctrl with commands := ts.ctrl.commands ++ [c] }
    timers := if timeoutMs > 0 then ts.timers ++ [(c.id, ts.now + timeoutMs)]
              else ts.timers }

/-- The `setTimeout` callback of `send`, run when the timer is still active
(it was not cleared by `onDone`, i.e. the command never completed inside
its window): `this._removeCommand(command); reject("Command timed out")`. -/
def fireTimer (ts : TimedState) (c : Command) (deadline : Nat) : TimedState :=
  if (c.id, deadline) ∈ ts.timers then
    { ctrl := _removeCommand ts.ctrl c
      now := deadline
      timers := ts.timers.filter (fun p => p != (c.id, deadline))
      rejected := ts.rejected ++ [c.id] }
  else ts

/-- C3: a command sent with `timeoutMs > 0` registers a timer expiring
exactly `timeoutMs` later, while `timeoutMs = 0` registers none (the
command waits indefinitely); when an active timer fires, the command is
removed from the pending queue — no command with its id remains — and its
caller's promise is rejected with the timeout error. -/
theorem send_timeout_spec (ts : TimedState) (c : Command) (timeoutMs deadline : Nat)
    (hpos : 0 < timeoutMs) (hactive : (c.id, deadline) ∈ ts.timers) :
    (sendT ts c timeoutMs).timers = ts.timers ++ [(c.id, ts.now + timeoutMs)]
    ∧ (sendT ts c timeoutMs).ctrl.commands = ts.ctrl.commands ++ [c]
    ∧ (sendT ts c 0).timers = ts.timers
    ∧ (∀ c2 ∈ (fireTimer ts c deadline).ctrl.commands, c2.id ≠ c.id)
    ∧ (fireTimer ts c deadline).rejected = ts.rejected ++ [c.id] := by
  refine ⟨by simp [sendT, hpos], by simp [sendT], by simp [sendT], ?_, ?_⟩
  · intro c2 hc2
    simp only [fireTimer, hactive, if_true, _removeCommand] at hc2
    have := List.of_mem_filter hc2
    simpa using this
  · simp [fireTimer, hactive]

/-- Concrete timed state for the witness: one pending command with an
active timer. -/
def cmdT : Command :=
  { id := 7
    command := "$$".toList
    state := CommandState.PENDING
    received := []
    spec := fun ls => ls.length == 1 }

def tsW : TimedState :=
  { ctrl := { initialState with commands := [cmdT] }
    now := 100
    timers := [(7, 1100)]
    rejected := [] }

theorem send_timeout_spec_witness :
    (sendT tsW cmdT 1000).timers = tsW.timers ++ [(cmdT.id, tsW.now + 1000)]
    ∧ (sendT tsW cmdT 1000).ctrl.commands = tsW.ctrl.commands ++ [cmdT]
    ∧ (sendT tsW cmdT 0).timers = tsW.timers
    ∧ (∀ c2 ∈ (fireTimer tsW cmdT 1100).ctrl.commands, c2.id ≠ cmdT.id)
    ∧ (fireTimer tsW cmdT 1100).rejected = tsW.rejected ++ [cmdT.id] :=
  send_timeout_spec tsW cmdT 1000 1100 (by decide) (by decide)

/-- Timeout passed by `ping()` to `send` in `ControllerService.ts`. -/
def pingTimeoutMs : Nat := 1000

/-- Function `ping()` of `ControllerService.ts`: sends a `PingCommand` through
`send(pingCommand, pingTimeoutMs)`; `sendResolved` is the outcome of
awaiting that call.  On success the status is set to CONNECTED and the
returned promise resolves (`true`); on failure the promise is rejected
(`false`) and the state is not touched. -/
def ping (st : ControllerState) (sendResolved : Bool) : ControllerState × Bool :=
  if sendResolved then ({ st with status := ControllerStatus.CONNECTED }, true)
  else (st, false)

/-- C7: `ping` uses a 1000 ms timeout; when the underlying send resolves,
ping resolves and the status becomes CONNECTED; when it fails, ping rejects
and the status field is exactly what it was before the call. -/
theorem ping_spec (st : ControllerState) :
    pingTimeoutMs = 1000
    ∧ ping st true = ({ st with status := ControllerStatus.CONNECTED }, true)
    ∧ (ping st true).1.status = ControllerStatus.CONNECTED
    ∧ (ping st false).1.status = st.status
    ∧ (ping st false).2 = false := by
  refine ⟨rfl, by simp [ping], by simp [ping], by simp [ping], by simp [ping]⟩

/-- JavaScript `String.prototype.indexOf` scan: first position `≥ i` at
which `pat` occurs in `s`, as an offset counted from the original start. -/
def indexOfFrom (pat : List Char) : List Char → Nat → Option Nat
  | [], i => if pat.isPrefixOf [] then some i else none
  | c :: t, i => if pat.isPrefixOf (c :: t) then some i else indexOfFrom pat t (i + 1)

/-- JavaScript `s.indexOf(pat)`: the first occurrence index, `-1` when
the pattern does not occur. -/
def jsIndexOf (s pat : List Char) : Int :=
  match indexOfFrom pat s 0 with
  | some n => (n : Int)
  | none => -1

/-- Predicate `isWelcomeString` of `ControllerService.ts`: the argument may be
`undefined` (`none`); an empty string is falsy.  Otherwise the line is a
welcome string when it starts with one of the two Grbl banners or contains
`" [FluidNC v"` at a strictly positive index. -/
def isWelcomeString : Option (List Char) → Bool
  | none => false
  | some response =>
    !response.isEmpty &&
      ("GrblHAL ".toList.isPrefixOf response ||
       "Grbl ".toList.isPrefixOf response ||
       decide (0 < jsIndexOf response " [FluidNC v".toList))

theorem isPrefixOf_true_iff : ∀ (l₁ l₂ : List Char), l₁.isPrefixOf l₂ = true ↔ l₁ <+: l₂
  | [], l₂ => by
    simp only [List.isPrefixOf]
    exact iff_of_true trivial ⟨l₂, rfl⟩
  | a :: t₁, [] => by
    simp only [List.isPrefixOf]
    constructor
    · intro h; cases h
    · intro h
      obtain ⟨r, hr⟩ := h
      cases hr
  | a :: t₁, b :: t₂ => by
    simp only [List.isPrefixOf, Bool.and_eq_true, beq_iff_eq]
    rw [isPrefixOf_true_iff t₁ t₂, List.cons_prefix_cons]

theorem indexOfFrom_none_iff (pat : List Char) :
    ∀ (s : List Char) (i : Nat),
    indexOfFrom pat s i = none ↔ ∀ k, ¬ pat <+: s.drop k := by
  intro s
  induction s with
  | nil =>
    intro i
    simp only [indexOfFrom]
    by_cases h : pat.isPrefixOf [] = true
    · rw [if_pos h]
      constructor
      · intro h2; simp at h2
      · intro h2
        exact absurd ((isPrefixOf_true_iff pat []).mp h) (by simpa using h2 0)
    · rw [if_neg h]
      constructor
      · intro _ k
        rw [List.drop_nil]
        exact fun hp => h ((isPrefixOf_true_iff pat []).mpr hp)
      · intro _; rfl
  | cons c t ih =>
    intro i
    simp only [indexOfFrom]
    by_cases h : pat.isPrefixOf (c :: t) = true
    · rw [if_pos h]
      constructor
      · intro h2; simp at h2
      · intro h2
        exact absurd ((isPrefixOf_true_iff pat (c :: t)).mp h) (by simpa using h2 0)
    · rw [if_neg h]
      rw [ih (i + 1)]
      constructor
      · intro h2 k
        cases k with
        | zero =>
          rw [List.drop_zero]
          exact fun hp => h ((isPrefixOf_true_iff pat (c :: t)).mpr hp)
        | succ k2 =>
          rw [List.drop_succ_cons]
          exact h2 k2
      · intro h2 k
        have := h2 (k + 1)
        rwa [List.drop_succ_cons] at this

theorem indexOfFrom_some (pat : List Char) :
    ∀ (s : List Char) (i j : Nat),
    indexOfFrom pat s i = some j → pat <+: s.drop (j - i) ∧ i ≤ j := by
  intro s
  induction s with
  | nil =>
    intro i j h
    simp only [indexOfFrom] at h
    by_cases hp : pat.isPrefixOf [] = true
    · rw [if_pos hp] at h
      obtain rfl : i = j := by simpa using h
      simpa using (isPrefixOf_true_iff pat []).mp hp
    · rw [if_neg hp] at h
      simp at h
  | cons c t ih =>
    intro i j h
    simp only [indexOfFrom] at h
    by_cases hp : pat.isPrefixOf (c :: t) = true
    · rw [if_pos hp] at h
      obtain rfl : i = j := by simpa using h
      simpa using (isPrefixOf_true_iff pat (c :: t)).mp hp
    · rw [if_neg hp] at h
      obtain ⟨h1, h2⟩ := ih (i + 1) j h
      refine ⟨?_, by omega⟩
      have hji : j - i = (j - (i + 1)) + 1 := by omega
      rw [hji, List.drop_succ_cons]
      exact h1

theorem indexOfFrom_zero_of_occ (pat s : List Char) (hp : pat <+: s) :
    indexOfFrom pat s 0 = some 0 := by
  cases s with
  | nil =>
    simp only [indexOfFrom]
    rw [if_pos ((isPrefixOf_true_iff pat []).mpr hp)]
  | cons c t =>
    simp only [indexOfFrom]
    rw [if_pos ((isPrefixOf_true_iff pat (c :: t)).mpr hp)]

theorem indexOfFrom_zero_pos (pat s : List Char) (j : Nat)
    (hnp : ¬ pat <+: s) (h : indexOfFrom pat s 0 = some j) : 0 < j := by
  cases s with
  | nil =>
    simp only [indexOfFrom] at h
    rw [if_neg (fun hp => hnp ((isPrefixOf_true_iff pat []).mp hp))] at h
    simp at h
  | cons c t =>
    simp only [indexOfFrom] at h
    rw [if_neg (fun hp => hnp ((isPrefixOf_true_iff pat (c :: t)).mp hp))] at h
    have := (indexOfFrom_some pat t 1 j h).2
    omega

theorem jsIndexOf_eq_of_some (s pat : List Char) (j : Nat)
    (h : indexOfFrom pat s 0 = some j) : jsIndexOf s pat = (j : Int) := by
  unfold jsIndexOf
  rw [h]

theorem jsIndexOf_eq_of_none (s pat : List Char)
    (h : indexOfFrom pat s 0 = none) : jsIndexOf s pat = -1 := by
  unfold jsIndexOf
  rw [h]

theorem jsIndexOf_pos_iff (s pat : List Char) :
    0 < jsIndexOf s pat ↔ (¬ pat <+: s ∧ ∃ k, pat <+: s.drop k) := by
  cases hio : indexOfFrom pat s 0 with
  | none =>
    rw [jsIndexOf_eq_of_none s pat hio]
    constructor
    · intro h
      norm_num at h
    · rintro ⟨_, k, h2⟩
      exact absurd h2 ((indexOfFrom_none_iff pat s 0).mp hio k)
  | some j =>
    rw [jsIndexOf_eq_of_some s pat j hio]
    constructor
    · intro h
      have hj : 0 < j := by exact_mod_cast h
      have hs1 := indexOfFrom_some pat s 0 j hio
      refine ⟨?_, ⟨j, by simpa using hs1.1⟩⟩
      intro hp
      rw [indexOfFrom_zero_of_occ pat s hp] at hio
      obtain rfl : (0 : Nat) = j := by simpa using hio
      omega
    · rintro ⟨hnp, _, _⟩
      have := indexOfFrom_zero_pos pat s j hnp hio
      exact_mod_cast this

/-- C4: characterisation of the welcome banner: a defined line is accepted
exactly when it is non-empty and starts with `"GrblHAL "`, starts with
`"Grbl "`, or contains `" [FluidNC v"` first occurring at a strictly
positive index; with the concrete checks of the spec: the Grbl 1.1h
banner and a FluidNC banner are accepted and `"ok"` is rejected. -/
theorem isWelcomeString_spec :
    (∀ s : List Char,
      isWelcomeString (some s) = true ↔
        (s ≠ [] ∧
          ("GrblHAL ".toList <+: s ∨ "Grbl ".toList <+: s ∨
            (¬ " [FluidNC v".toList <+: s ∧ ∃ k, " [FluidNC v".toList <+: s.drop k))))
    ∧ isWelcomeString (some ("Grbl 1.1h [".toList
        ++ [Char.ofNat 39, '$', Char.ofNat 39] ++ " for help]".toList)) = true
    ∧ isWelcomeString (some "FluidNC v3.7 [FluidNC v3.7]".toList) = true
    ∧ isWelcomeString (some "ok".toList) = false := by
  refine ⟨?_, by decide, by decide, by decide⟩
  intro s
  simp only [isWelcomeString, Bool.and_eq_true, Bool.or_eq_true, Bool.not_eq_true',
    isPrefixOf_true_iff, decide_eq_true_eq, jsIndexOf_pos_iff, List.isEmpty_eq_false,
    ne_eq]
  tauto

/-- Transport-level actions performed during `connect`/`getStats`:
`serialPort.open`, `serialPort.write`, reader (un)registration, and a
command sent through the dispatcher (`send`). -/
inductive TransportOp
  | openPort (baud : Nat)
  | write (bytes : List Nat)
  | addReader
  | removeReader
  | sendCommand
deriving DecidableEq

def strBytes (s : List Char) : List Nat := s.map Char.toNat

/-- Bytes `0x0c 0x18` of `Buffer.from([0x0c, 0x18])` — echo off and soft reset. -/
def resetBytes : List Nat := [0x0c, 0x18]

/-- Bytes of `"$I\n"` — the version query of `_initializeController`. -/
def versionQueryBytes : List Nat := strBytes "$I\n".toList

/-- JavaScript truthiness of `this.currentVersion` (string or undefined):
only a defined, non-empty string is truthy. -/
def jsTruthy : Option (List Char) → Bool
  | none => false
  | some s => !s.isEmpty

/-- Function `getStats` of `ControllerService.ts`: only when no stats are cached and
a version is known, a `GetStatsCommand` is sent (timeout 5000); a failure
is logged and swallowed, a success caches the parsed stats.  `fetchResult`
is the awaited outcome of that send. -/
def getStats (st : ControllerState) (fetchResult : Option Stats) :
    ControllerState × List TransportOp :=
  if st.stats.isNone && jsTruthy st.currentVersion then
    match fetchResult with
    | some s => ({ st with stats := some s }, [TransportOp.sendCommand])
    | none => (st, [TransportOp.sendCommand])
  else (st, [])

/-- Poll loop `waitForWelcomeString`: polls `readLine` for a bounded 15 s window;
the window is abstracted as the list of lines read within it, and the poll
succeeds exactly when one of them is a welcome string. -/
def gotWelcome (windowLines : List (List Char)) : Bool :=
  windowLines.any (fun l => isWelcomeString (some l))

/-- Handshake `_initializeController`: when a welcome banner was seen, settle, write
a bare newline, query `$I` and record the response as `currentVersion`;
when no banner was seen within the window, return without error and do
nothing.  `versionLine` is the line the device returns to the query. -/
def _initializeController (st : ControllerState) (windowLines : List (List Char))
    (versionLine : List Char) : ControllerState × List TransportOp :=
  if gotWelcome windowLines then
    ({ st with currentVersion := some versionLine },
     [TransportOp.write (strBytes "\n".toList), TransportOp.write versionQueryBytes])
  else (st, [])

/-- Function `connect` of `ControllerService.ts`: when the port is already open the
whole open/reset/handshake/reader block is skipped and only `getStats` runs;
otherwise the port is opened at 115200, a buffered reader attached, the
reset bytes written, `_initializeController` run, the temporary reader
removed, status set to CONNECTED, the permanent `onData` reader attached,
and `getStats` run.  Returns the final state, the returned status and the
transport operations performed. -/
def connect (st : ControllerState) (portOpen : Bool) (windowLines : List (List Char))
    (versionLine : List Char) (statsFetch : Option Stats) :
    ControllerState × ControllerStatus × List TransportOp :=
  if portOpen then
    let g := getStats st statsFetch
    (g.1, g.1.status, g.2)
  else
    let ic := _initializeController st windowLines versionLine
    let st2 := { ic.1 with status := ControllerStatus.CONNECTED }
    let g := getStats st2 statsFetch
    (g.1, g.1.status,
      ([TransportOp.openPort 115200, TransportOp.addReader, TransportOp.write resetBytes]
        ++ ic.2 ++ [TransportOp.removeReader, TransportOp.addReader]) ++ g.2)

theorem getStats_cases (st : ControllerState) (fetchResult : Option Stats) :
    getStats st fetchResult = (st, [])
    ∨ getStats st fetchResult = (st, [TransportOp.sendCommand])
    ∨ ∃ s, getStats st fetchResult = ({ st with stats := some s }, [TransportOp.sendCommand]) := by
  unfold getStats
  by_cases hc : (st.stats.isNone && jsTruthy st.currentVersion) = true
  · rw [if_pos hc]
    cases fetchResult with
    | none => exact Or.inr (Or.inl rfl)
    | some s => exact Or.inr (Or.inr ⟨s, rfl⟩)
  · rw [if_neg hc]
    exact Or.inl rfl

/-- C5: with no welcome banner within the detection window,
`_initializeController` returns without error and the version query is
skipped, so `connect` still completes with status CONNECTED while
`currentVersion` stays unset. -/
theorem connect_lenient_handshake (st : ControllerState) (windowLines : List (List Char))
    (versionLine : List Char) (statsFetch : Option Stats)
    (hver : st.currentVersion = none) (hnb : gotWelcome windowLines = false) :
    (connect st false windowLines versionLine statsFetch).1.status = ControllerStatus.CONNECTED
    ∧ (connect st false windowLines versionLine statsFetch).1.currentVersion = none
    ∧ (connect st false windowLines versionLine statsFetch).2.1 = ControllerStatus.CONNECTED
    ∧ TransportOp.write versionQueryBytes
        ∉ (connect st false windowLines versionLine statsFetch).2.2 := by
  have hic : _initializeController st windowLines versionLine = (st, []) := by
    simp [_initializeController, hnb]
  have hg : getStats { st with status := ControllerStatus.CONNECTED } statsFetch
      = ({ st with status := ControllerStatus.CONNECTED }, []) := by
    simp [getStats, jsTruthy, hver]
  refine ⟨?_, ?_, ?_, ?_⟩
  · simp [connect, hic, hg]
  · simp [connect, hic, hg]
    exact hver
  · simp [connect, hic, hg]
  · simp [connect, hic, hg]
    decide

theorem connect_lenient_handshake_witness :
    (connect initialState false ["ok".toList] [] none).1.status = ControllerStatus.CONNECTED
    ∧ (connect initialState false ["ok".toList] [] none).1.currentVersion = none
    ∧ (connect initialState false ["ok".toList] [] none).2.1 = ControllerStatus.CONNECTED
    ∧ TransportOp.write versionQueryBytes
        ∉ (connect initialState false ["ok".toList] [] none).2.2 :=
  connect_lenient_handshake initialState ["ok".toList] [] none rfl (by decide)

/-- Stats record used for the counterexample. -/
def statsW : Stats := ⟨[]⟩

/-- Session state with the port already open, a known version and no cached
stats — the situation in which a repeated `connect()` is not a no-op. -/
def stOpenW : ControllerState :=
  { buffer := []
    commands := []
    xmodemMode := false
    status := ControllerStatus.CONNECTED
    currentVersion := some "v3.7".toList
    stats := none }

/-- C9 counterexample: calling `connect` with the transport already open
does change the session state: the best-effort `getStats` call still runs
and fills the `stats` field when a version is known and no stats are
cached. -/
theorem connect_openPort_not_noop :
    (connect stOpenW true [] [] (some statsW)).1 ≠ stOpenW := by
  intro h
  have h2 := congrArg ControllerState.stats h
  have h3 : (connect stOpenW true [] [] (some statsW)).1.stats = some statsW := by
    simp [connect, getStats, stOpenW, jsTruthy]
  rw [h3] at h2
  simp [stOpenW] at h2

/-- C9 (amended): `connect` with the transport already open performs no
transport open, reset, handshake or reader registration and returns the
current status; it only runs the best-effort stats fetch, which may set
the `stats` field (issuing one dispatcher send) — every other session
field is unchanged. -/
theorem connect_openPort_amended (st : ControllerState) (windowLines : List (List Char))
    (versionLine : List Char) (statsFetch : Option Stats) :
    connect st true windowLines versionLine statsFetch
      = ((getStats st statsFetch).1, st.status, (getStats st statsFetch).2)
    ∧ (getStats st statsFetch).1.buffer = st.buffer
    ∧ (getStats st statsFetch).1.commands = st.commands
    ∧ (getStats st statsFetch).1.xmodemMode = st.xmodemMode
    ∧ (getStats st statsFetch).1.status = st.status
    ∧ (getStats st statsFetch).1.currentVersion = st.currentVersion
    ∧ ((getStats st statsFetch).2.all
        (fun op => decide (op = TransportOp.sendCommand))) = true := by
  rcases getStats_cases st statsFetch with hg | hg | ⟨s, hg⟩ <;>
    simp [connect, hg]
